import Mathlib

/-!
Shallow embedding of `src/models/recommendation_pipeline.py`
(class `ProductRecommendation` plus the module-level `save_results` / `main`).

The pipeline is embedded over lists of records.  Machine floats of the source
are modelled as rationals; Spark dataframes as Lean lists; the opaque
classifier capability (RandomForest `fit`/`predict`) as a function parameter;
the seeded `randomSplit` as a boolean assignment parameter.  Where Spark
leaves an ordering unspecified (ties in `orderBy`), the embedding uses a
stable insertion sort, a deterministic refinement of the unspecified order.
-/

namespace Pipeline

/-- A raw row of `product_rankings`: `productId, date, ranking`. -/
structure RankingRecord where
  productId : Nat
  date : Int
  ranking : Int
  deriving DecidableEq, Repr

/-- A ranking row after `preprocess_data` lines 36-42: `recommend` has been
computed and the `ranking` column dropped. -/
structure LabeledRecord where
  productId : Nat
  date : Int
  recommend : Nat
  deriving DecidableEq, Repr

/-- Lines 36-42: `recommend = when(ranking <= 150, 1).otherwise(0)`, then
`drop("ranking")`. -/
def labelAssign (r : RankingRecord) : LabeledRecord :=
  { productId := r.productId
    date := r.date
    recommend := if r.ranking ≤ 150 then 1 else 0 }

/-- The row selected by `row_number().over(Window.partitionBy("productId")
.orderBy(desc("date"))) == 1`: the first row of the group once sorted by
descending date (ties resolved by keeping the earlier row, a deterministic
refinement of the unspecified Spark tie order). -/
def latest : List RankingRecord → Option RankingRecord
  | [] => none
  | r :: rs =>
    match latest rs with
    | none => some r
    | some m => if m.date > r.date then some m else some r

/-- Lines 26-33: keep, for each distinct `productId`, the row with the most
recent `date`. -/
def dedupRankings (l : List RankingRecord) : List RankingRecord :=
  ((l.map (fun r => r.productId)).dedup).filterMap
    (fun pid => latest (l.filter (fun r => r.productId = pid)))

theorem latest_isSome {l : List RankingRecord} (h : l ≠ []) :
    (latest l).isSome := by
  cases l with
  | nil => exact absurd rfl h
  | cons r rs =>
    simp only [latest]
    cases latest rs with
    | none => rfl
    | some m =>
      by_cases hd : m.date > r.date <;> simp [hd]

theorem latest_mem {l : List RankingRecord} {m : RankingRecord}
    (h : latest l = some m) : m ∈ l := by
  induction l with
  | nil => simp [latest] at h
  | cons r rs ih =>
    simp only [latest] at h
    cases hl : latest rs with
    | none => rw [hl] at h; simp at h; simp [h]
    | some m₀ =>
      rw [hl] at h
      by_cases hd : m₀.date > r.date
      · simp [hd] at h; subst h
        exact List.mem_cons_of_mem _ (ih hl)
      · simp [hd] at h; simp [h]

theorem latest_eq_none {l : List RankingRecord} :
    latest l = none ↔ l = [] := by
  cases l with
  | nil => simp [latest]
  | cons r rs =>
    simp only [latest]
    cases latest rs with
    | none => simp
    | some m => by_cases hd : m.date > r.date <;> simp [hd]

theorem latest_date_max {l : List RankingRecord} :
    ∀ {m : RankingRecord}, latest l = some m → ∀ s ∈ l, s.date ≤ m.date := by
  induction l with
  | nil => simp
  | cons r rs ih =>
    intro m h s hs
    simp only [latest] at h
    cases hl : latest rs with
    | none =>
      rw [hl] at h
      simp only [Option.some.injEq] at h
      have hrs : rs = [] := latest_eq_none.mp hl
      subst hrs
      rcases List.mem_cons.mp hs with hs | hs
      · rw [hs, ← h]
      · simp at hs
    | some m₀ =>
      rw [hl] at h
      rcases List.mem_cons.mp hs with hs | hs
      · by_cases hd : m₀.date > r.date
        · simp only [hd, if_true, Option.some.injEq] at h
          rw [hs, ← h]; exact le_of_lt hd
        · simp only [hd, if_false, Option.some.injEq] at h
          rw [hs, ← h]
      · have hs' := ih (m := m₀) hl s hs
        by_cases hd : m₀.date > r.date
        · simp only [hd, if_true, Option.some.injEq] at h
          rw [← h]; exact hs'
        · simp only [hd, if_false, Option.some.injEq] at h
          push_neg at hd
          rw [← h]; exact le_trans hs' hd

theorem latest_filter_some (l : List RankingRecord) (pid : Nat)
    (h : pid ∈ l.map (fun r => r.productId)) :
    ∃ m, latest (l.filter (fun r => r.productId = pid)) = some m ∧
      m.productId = pid ∧ m ∈ l ∧
      ∀ s ∈ l, s.productId = pid → s.date ≤ m.date := by
  obtain ⟨r, hr, hrp⟩ := List.mem_map.mp h
  have hrf : r ∈ l.filter (fun r => r.productId = pid) := by
    simp [List.mem_filter, hr, hrp]
  have hne : l.filter (fun r => r.productId = pid) ≠ [] := by
    intro hnil; rw [hnil] at hrf; simp at hrf
  obtain ⟨m, hm⟩ := Option.isSome_iff_exists.mp (latest_isSome hne)
  refine ⟨m, hm, ?_, ?_, ?_⟩
  · have := latest_mem hm
    simpa using (List.mem_filter.mp this).2
  · exact (List.mem_filter.mp (latest_mem hm)).1
  · intro s hs hsp
    exact latest_date_max hm s (by simp [List.mem_filter, hs, hsp])

theorem filterMap_map_key (ks : List Nat) (f : Nat → Option RankingRecord)
    (hf : ∀ k ∈ ks, ∃ m, f k = some m ∧ m.productId = k) :
    (ks.filterMap f).map (fun r => r.productId) = ks := by
  induction ks with
  | nil => simp
  | cons k ks ih =>
    obtain ⟨m, hm, hpid⟩ := hf k (by simp)
    rw [List.filterMap_cons, hm]
    simp only [List.map_cons, hpid]
    rw [ih (fun k hk => hf k (by simp [hk]))]

theorem dedup_map_productId (l : List RankingRecord) :
    (dedupRankings l).map (fun r => r.productId) =
      (l.map (fun r => r.productId)).dedup := by
  unfold dedupRankings
  apply filterMap_map_key
  intro k hk
  have hk' : k ∈ l.map (fun r => r.productId) := List.mem_dedup.mp hk
  obtain ⟨m, hm, hp, _, _⟩ := latest_filter_some l k hk'
  exact ⟨m, hm, hp⟩

theorem filter_key_length_one (L : List RankingRecord) (pid : Nat)
    (hnd : (L.map (fun r => r.productId)).Nodup)
    (hm : pid ∈ L.map (fun r => r.productId)) :
    (L.filter (fun r => r.productId = pid)).length = 1 := by
  induction L with
  | nil => simp at hm
  | cons r L ih =>
    simp only [List.map_cons, List.nodup_cons] at hnd
    by_cases hp : r.productId = pid
    · have hnot : pid ∉ L.map (fun r => r.productId) := hp ▸ hnd.1
      have hfil : L.filter (fun r => r.productId = pid) = [] := by
        apply List.filter_eq_nil_iff.mpr
        intro a ha
        simp only [decide_eq_true_eq]
        intro hc
        exact hnot (hc ▸ List.mem_map_of_mem (fun r => r.productId) ha)
      simp [List.filter_cons, hp, hfil]
    · have hm' : pid ∈ L.map (fun r => r.productId) := by
        rcases List.mem_cons.mp hm with h | h
        · exact absurd h.symm hp
        · exact h
      simp only [List.filter_cons, hp]
      simpa using ih hnd.2 hm'

/-- C2: after `RankingDeduplicator` (lines 26-33), each distinct `productId`
appears in exactly one surviving record, and every surviving record with that
`productId` comes from the input and carries the maximum `date` among the
input records sharing its `productId`. -/
theorem dedup_unique_latest (l : List RankingRecord) (pid : Nat)
    (h : pid ∈ l.map (fun r => r.productId)) :
    ((dedupRankings l).filter (fun r => r.productId = pid)).length = 1 ∧
    ∀ m ∈ dedupRankings l, m.productId = pid →
      m ∈ l ∧ ∀ s ∈ l, s.productId = pid → s.date ≤ m.date := by
  constructor
  · apply filter_key_length_one
    · rw [dedup_map_productId]; exact List.nodup_dedup _
    · rw [dedup_map_productId]; exact List.mem_dedup.mpr h
  · intro m hmem hpid
    obtain ⟨k, hk, hlat⟩ := List.mem_filterMap.mp hmem
    have hmk : m.productId = k := by
      have := latest_mem hlat
      simpa using (List.mem_filter.mp this).2
    have hkpid : k = pid := hmk ▸ hpid
    subst hkpid
    constructor
    · exact (List.mem_filter.mp (latest_mem hlat)).1
    · intro s hs hsp
      exact latest_date_max hlat s (by simp [List.mem_filter, hs, hsp, hmk])

/-- Witness for `dedup_unique_latest` at a concrete input. -/
theorem dedup_unique_latest_witness :
    ((dedupRankings [⟨7, 1, 10⟩, ⟨7, 5, 200⟩]).filter
        (fun r => r.productId = 7)).length = 1 ∧
    ∀ m ∈ dedupRankings [⟨7, 1, 10⟩, ⟨7, 5, 200⟩], m.productId = 7 →
      m ∈ [(⟨7, 1, 10⟩ : RankingRecord), ⟨7, 5, 200⟩] ∧
      ∀ s ∈ [(⟨7, 1, 10⟩ : RankingRecord), ⟨7, 5, 200⟩],
        s.productId = 7 → s.date ≤ m.date :=
  dedup_unique_latest [⟨7, 1, 10⟩, ⟨7, 5, 200⟩] 7 (by decide)

/-- C1: for every record surviving deduplication, `recommend = 1` iff
`ranking ≤ 150` and `recommend = 0` otherwise (lines 36-39); in particular
ranking 150 labels 1 and ranking 151 labels 0. -/
theorem label_rule (l : List RankingRecord) (r : RankingRecord)
    (h : r ∈ dedupRankings l) :
    ((labelAssign r).recommend = 1 ↔ r.ranking ≤ 150) ∧
    ((labelAssign r).recommend = 0 ↔ ¬ r.ranking ≤ 150) ∧
    (r.ranking = 150 → (labelAssign r).recommend = 1) ∧
    (r.ranking = 151 → (labelAssign r).recommend = 0) := by
  by_cases hr : r.ranking ≤ 150 <;>
    simp [labelAssign, hr] <;> omega

/-- Witness for `label_rule` at a concrete input. -/
theorem label_rule_witness :
    ((labelAssign ⟨1, 0, 150⟩).recommend = 1 ↔
        (⟨1, 0, 150⟩ : RankingRecord).ranking ≤ 150) ∧
    ((labelAssign ⟨1, 0, 150⟩).recommend = 0 ↔
        ¬ (⟨1, 0, 150⟩ : RankingRecord).ranking ≤ 150) ∧
    ((⟨1, 0, 150⟩ : RankingRecord).ranking = 150 →
        (labelAssign ⟨1, 0, 150⟩).recommend = 1) ∧
    ((⟨1, 0, 150⟩ : RankingRecord).ranking = 151 →
        (labelAssign ⟨1, 0, 150⟩).recommend = 0) :=
  label_rule [⟨1, 0, 150⟩] ⟨1, 0, 150⟩ (by decide)

/-- A row of `product_keywords` after the `fillna` of line 48 and the
`split(keywords, ", ")` of line 61: `keywords` is already the token list. -/
structure KeywordRecord where
  productId : Nat
  brandName : String
  colors : String
  keywords : List String
  rating : ℚ
  ratingCount : ℚ
  price : ℚ
  discountRate : ℚ
  conversionRate : ℚ
  trending : ℚ
  totalSales : ℚ
  views : ℚ
  likes : ℚ
  category : String
  deriving DecidableEq, Repr

/-- A row of `joined_data` (line 45): labeled-ranking fields plus the matching
keyword-table fields. -/
structure JoinedRecord where
  productId : Nat
  date : Int
  recommend : Nat
  brandName : String
  colors : String
  keywords : List String
  rating : ℚ
  ratingCount : ℚ
  price : ℚ
  discountRate : ℚ
  conversionRate : ℚ
  trending : ℚ
  totalSales : ℚ
  views : ℚ
  likes : ℚ
  category : String
  deriving DecidableEq, Repr

def mkJoined (lr : LabeledRecord) (k : KeywordRecord) : JoinedRecord :=
  { productId := lr.productId
    date := lr.date
    recommend := lr.recommend
    brandName := k.brandName
    colors := k.colors
    keywords := k.keywords
    rating := k.rating
    ratingCount := k.ratingCount
    price := k.price
    discountRate := k.discountRate
    conversionRate := k.conversionRate
    trending := k.trending
    totalSales := k.totalSales
    views := k.views
    likes := k.likes
    category := k.category }

/-- Line 45: `join(product_keywords, on="productId", how="inner")`. -/
def joinLists : List LabeledRecord → List KeywordRecord → List JoinedRecord
  | [], _ => []
  | lr :: rest, kws =>
    ((kws.filter (fun k => k.productId = lr.productId)).map (mkJoined lr)) ++
      joinLists rest kws

/-- Pair each distinct value with its number of occurrences, in
first-occurrence order. -/
def countPairs (ts : List String) : List (String × Nat) :=
  ts.dedup.map (fun t => (t, ts.count t))

/-- `orderBy(col("count").desc())`: comparison by descending count.  The
stable insertion sort below refines the unspecified Spark tie order by keeping
first-occurrence order among equal counts. -/
def countGE (a b : String × Nat) : Prop := b.2 ≤ a.2

instance : DecidableRel countGE := fun a b =>
  inferInstanceAs (Decidable (b.2 ≤ a.2))

instance : IsTotal (String × Nat) countGE :=
  ⟨fun a b => Nat.le_total b.2 a.2⟩

instance : IsTrans (String × Nat) countGE :=
  ⟨fun _ _ _ hab hbc => le_trans hbc hab⟩

/-- Distinct values of a column sorted by descending frequency. -/
def byCountDesc (ts : List String) : List (String × Nat) :=
  List.insertionSort countGE (countPairs ts)

/-- `StringIndexer` labels (default `frequencyDesc` order): value at index
`i` is the `i`-th most frequent distinct value (lines 51-52). -/
def indexerLabels (vals : List String) : List String :=
  (byCountDesc vals).map (fun p => p.1)

/-- `OneHotEncoder` with the Spark default `dropLast = true` (lines 53-54): the
vector has `numCategories - 1` slots; the last-indexed category maps to the
all-zero vector. -/
def oneHotEncode (vals : List String) (v : String) : List ℚ :=
  let labels := indexerLabels vals
  (List.range (labels.length - 1)).map
    (fun j => if labels.indexOf v = j then 1 else 0)

/-- A Hangul syllable, the `가-힣` range of the regex on line 70. -/
def isHangulSyllable (c : Char) : Bool :=
  decide (0xAC00 ≤ c.toNat ∧ c.toNat ≤ 0xD7A3)

/-- An ASCII letter, the `a-zA-Z` ranges of the regex on line 70. -/
def isAsciiLetterChar (c : Char) : Bool :=
  decide ((65 ≤ c.toNat ∧ c.toNat ≤ 90) ∨ (97 ≤ c.toNat ∧ c.toNat ≤ 122))

/-- Lines 68-71: `regexp_replace(lower(keyword), "[^가-힣a-zA-Z]", "")` —
lowercase, then delete every character that is neither a Hangul syllable nor
an ASCII letter. -/
def normalizeToken (s : String) : String :=
  String.mk ((s.data.map Char.toLower).filter
    (fun c => isHangulSyllable c || isAsciiLetterChar c))

/-- Lines 65-71: explode the token list of every record and normalize each token.
Empty normalization results are kept, exactly as in the source. -/
def allNormalizedTokens (corpus : List (List String)) : List String :=
  corpus.flatten.map normalizeToken

/-- Lines 74-81: count normalized tokens over the whole corpus, order by
descending count, keep the first 100. -/
def keywordVocab (corpus : List (List String)) : List String :=
  ((byCountDesc (allNormalizedTokens corpus)).take 100).map (fun p => p.1)

/-- Lines 86-89: keep exactly the raw (unnormalized) tokens that literally
appear in the vocabulary list. -/
def filteredKeywords (vocab : List String) (kws : List String) : List String :=
  kws.filter (fun t => t ∈ vocab)

/-- `CountVectorizer.fit` (lines 92-93): the vocabulary it builds from the
filtered documents — distinct terms by descending total count (the default
`vocabSize` of 2^18 truncates nothing here). -/
def cvVocabulary (docs : List (List String)) : List String :=
  (byCountDesc docs.flatten).map (fun p => p.1)

/-- `CountVectorizerModel.transform`: slot `i` holds the number of
occurrences of vocabulary term `i` in the document. -/
def cvTransform (vocab : List String) (doc : List String) : List ℚ :=
  vocab.map (fun w => (doc.count w : ℚ))

def joinedKeywordLists (joined : List JoinedRecord) : List (List String) :=
  joined.map (fun j => j.keywords)

/-- The frozen top-100 vocabulary of `vectorize_keywords`, computed from the
joined corpus. -/
def pipelineVocab (joined : List JoinedRecord) : List String :=
  keywordVocab (joinedKeywordLists joined)

/-- The per-record `filtered_keywords` column (lines 86-89). -/
def pipelineFiltered (joined : List JoinedRecord) (j : JoinedRecord) :
    List String :=
  filteredKeywords (pipelineVocab joined) j.keywords

/-- The `CountVectorizer` vocabulary refit on the filtered column
(lines 92-93). -/
def pipelineCvVocab (joined : List JoinedRecord) : List String :=
  cvVocabulary (joined.map (pipelineFiltered joined))

/-- The per-record `keyword_features` column (line 94). -/
def keywordFeaturesOf (joined : List JoinedRecord) (j : JoinedRecord) :
    List ℚ :=
  cvTransform (pipelineCvVocab joined) (pipelineFiltered joined j)

/-- `VectorAssembler` input columns, lines 99-100, in source order. -/
def assemblerInputCols : List String :=
  ["brand_ohe", "colors_ohe", "keyword_features", "price", "discountRate",
   "conversionRate", "trending", "totalSales", "views", "likes", "rating",
   "ratingCount"]

/-- The assembled `features` column of a record: brand one-hot, colors
one-hot, keyword count vector, then the nine numeric columns, concatenated in
the order of `assemblerInputCols`.  The three fitted artifacts are computed
from the joined corpus, as in `preprocess_data` / `vectorize_keywords`. -/
def pipelineFeature (joined : List JoinedRecord) (j : JoinedRecord) :
    List ℚ :=
  oneHotEncode (joined.map (fun x => x.brandName)) j.brandName ++
  oneHotEncode (joined.map (fun x => x.colors)) j.colors ++
  keywordFeaturesOf joined j ++
  [j.price, j.discountRate, j.conversionRate, j.trending, j.totalSales,
   j.views, j.likes, j.rating, j.ratingCount]

/-- The joined corpus of a run: label the deduplicated rankings, then
inner-join with the keyword table (lines 26-45). -/
def joinedOf (l : List RankingRecord) (kws : List KeywordRecord) :
    List JoinedRecord :=
  joinLists ((dedupRankings l).map labelAssign) kws

/-- All assembled feature vectors of a run, one per joined record. -/
def pipelineFeatures (l : List RankingRecord) (kws : List KeywordRecord) :
    List (List ℚ) :=
  (joinedOf l kws).map (pipelineFeature (joinedOf l kws))

/-- Erase the `ranking` column of a raw ranking row. -/
def zeroRanking (r : RankingRecord) : RankingRecord := { r with ranking := 0 }

def setRecL (n : Nat) (lr : LabeledRecord) : LabeledRecord :=
  { lr with recommend := n }

def setRecJ (n : Nat) (j : JoinedRecord) : JoinedRecord :=
  { j with recommend := n }

theorem map_zeroRanking_productId (l : List RankingRecord) :
    (l.map zeroRanking).map (fun r => r.productId) =
      l.map (fun r => r.productId) := by
  simp [List.map_map, zeroRanking, Function.comp]

theorem filter_map_zeroRanking (l : List RankingRecord) (pid : Nat) :
    (l.map zeroRanking).filter (fun r => r.productId = pid) =
      (l.filter (fun r => r.productId = pid)).map zeroRanking := by
  rw [List.filter_map]
  congr 1

theorem latest_map_zeroRanking (l : List RankingRecord) :
    latest (l.map zeroRanking) = (latest l).map zeroRanking := by
  induction l with
  | nil => simp [latest]
  | cons r rs ih =>
    simp only [List.map_cons, latest, ih]
    cases latest rs with
    | none => simp
    | some m =>
      by_cases hd : m.date > r.date <;> simp [zeroRanking, hd]

theorem dedup_map_zeroRanking (l : List RankingRecord) :
    dedupRankings (l.map zeroRanking) = (dedupRankings l).map zeroRanking := by
  unfold dedupRankings
  rw [map_zeroRanking_productId, List.map_filterMap]
  congr 1
  funext pid
  rw [filter_map_zeroRanking, latest_map_zeroRanking]

theorem labelAssign_zeroRanking (r : RankingRecord) :
    labelAssign (zeroRanking r) = setRecL 1 (labelAssign r) := by
  simp [labelAssign, zeroRanking, setRecL]

theorem joinLists_map_setRecL (lab : List LabeledRecord)
    (kws : List KeywordRecord) (n : Nat) :
    joinLists (lab.map (setRecL n)) kws =
      (joinLists lab kws).map (setRecJ n) := by
  induction lab with
  | nil => simp [joinLists]
  | cons lr rest ih =>
    simp only [List.map_cons, joinLists, List.map_append, ih]
    congr 1
    · rw [List.map_map]
      congr 1

theorem map_setRecJ_col {α : Type} (joined : List JoinedRecord) (n : Nat)
    (f : JoinedRecord → α) (hf : ∀ j, f (setRecJ n j) = f j) :
    (joined.map (setRecJ n)).map f = joined.map f := by
  rw [List.map_map]
  congr 1
  funext j
  exact hf j

theorem pipelineVocab_map_setRecJ (joined : List JoinedRecord) (n : Nat) :
    pipelineVocab (joined.map (setRecJ n)) = pipelineVocab joined := by
  unfold pipelineVocab joinedKeywordLists
  rw [map_setRecJ_col joined n (fun j => j.keywords) (fun _ => rfl)]

theorem pipelineFiltered_map_setRecJ (joined : List JoinedRecord) (n : Nat)
    (j : JoinedRecord) :
    pipelineFiltered (joined.map (setRecJ n)) (setRecJ n j) =
      pipelineFiltered joined j := by
  unfold pipelineFiltered
  rw [pipelineVocab_map_setRecJ]
  rfl

theorem pipelineCvVocab_map_setRecJ (joined : List JoinedRecord) (n : Nat) :
    pipelineCvVocab (joined.map (setRecJ n)) = pipelineCvVocab joined := by
  unfold pipelineCvVocab
  rw [List.map_map]
  have hfun : (pipelineFiltered (joined.map (setRecJ n)) ∘ setRecJ n) =
      pipelineFiltered joined := by
    funext j
    exact pipelineFiltered_map_setRecJ joined n j
  rw [hfun]

theorem pipelineFeature_map_setRecJ (joined : List JoinedRecord) (n : Nat)
    (j : JoinedRecord) :
    pipelineFeature (joined.map (setRecJ n)) (setRecJ n j) =
      pipelineFeature joined j := by
  unfold pipelineFeature keywordFeaturesOf
  rw [pipelineCvVocab_map_setRecJ, pipelineFiltered_map_setRecJ,
    map_setRecJ_col joined n (fun x => x.brandName) (fun _ => rfl),
    map_setRecJ_col joined n (fun x => x.colors) (fun _ => rfl)]
  rfl

theorem joinedOf_map_zeroRanking (l : List RankingRecord)
    (kws : List KeywordRecord) :
    joinedOf (l.map zeroRanking) kws = (joinedOf l kws).map (setRecJ 1) := by
  unfold joinedOf
  rw [dedup_map_zeroRanking, List.map_map]
  have hcomp : (labelAssign ∘ zeroRanking) = (setRecL 1 ∘ labelAssign) := by
    funext r
    exact labelAssign_zeroRanking r
  rw [hcomp, ← List.map_map, joinLists_map_setRecL]

/-- C3: the `ranking` column is dropped right after labeling (line 42, before
the join of line 45), it is not among the `VectorAssembler` input columns
(lines 99-100), and no assembled feature vector depends on it: erasing every
`ranking` value from the input leaves all feature vectors of the run
unchanged. -/
theorem ranking_never_in_features :
    "ranking" ∉ assemblerInputCols ∧
    ∀ (l : List RankingRecord) (kws : List KeywordRecord),
      pipelineFeatures (l.map zeroRanking) kws = pipelineFeatures l kws := by
  constructor
  · decide
  · intro l kws
    unfold pipelineFeatures
    rw [joinedOf_map_zeroRanking, List.map_map]
    congr 1
    funext j
    exact pipelineFeature_map_setRecJ (joinedOf l kws) 1 j

theorem toNat_ofNat_valid {n : Nat} (hv : n.isValidChar) :
    (Char.ofNat n).toNat = n := by
  simp [Char.ofNat, hv, Char.ofNatAux, Char.toNat, UInt32.toNat,
    BitVec.toNat_ofNatLt]

theorem toLower_toNat (c : Char) :
    (Char.toLower c).toNat =
      if 65 ≤ c.toNat ∧ c.toNat ≤ 90 then c.toNat + 32 else c.toNat := by
  unfold Char.toLower
  by_cases h : c.toNat ≥ 65 ∧ c.toNat ≤ 90
  · have hv : (c.toNat + 32).isValidChar := by
      left
      have h2 := h.2
      omega
    simp only [ge_iff_le, h, and_self, if_true]
    exact toNat_ofNat_valid hv
  · have h2 : ¬ (65 ≤ c.toNat ∧ c.toNat ≤ 90) := fun hc => h ⟨hc.1, hc.2⟩
    simp only [ge_iff_le, h2, if_false]

theorem toLower_not_upper (c : Char) :
    ¬ (65 ≤ (Char.toLower c).toNat ∧ (Char.toLower c).toNat ≤ 90) := by
  have h := toLower_toNat c
  by_cases hc : 65 ≤ c.toNat ∧ c.toNat ≤ 90
  · rw [if_pos hc] at h; omega
  · rw [if_neg hc] at h; omega

theorem normalizeToken_chars (s : String) :
    ∀ c ∈ (normalizeToken s).data,
      isHangulSyllable c = true ∨ (97 ≤ c.toNat ∧ c.toNat ≤ 122) := by
  intro c hc
  have hc' : c ∈ (s.data.map Char.toLower).filter
      (fun c => isHangulSyllable c || isAsciiLetterChar c) := hc
  have hmem := List.mem_filter.mp hc'
  have hpred := hmem.2
  rcases (Bool.or_eq_true _ _).mp hpred with hh | ha
  · exact Or.inl hh
  · obtain ⟨c₀, _, hcc⟩ := List.mem_map.mp hmem.1
    have hrange := of_decide_eq_true ha
    have hnu : ¬ (65 ≤ c.toNat ∧ c.toNat ≤ 90) := by
      rw [← hcc]
      exact toLower_not_upper c₀
    rcases hrange with h1 | h2
    · exact absurd h1 hnu
    · exact Or.inr h2

theorem vocab_mem_normalized {corpus : List (List String)} {t : String}
    (ht : t ∈ keywordVocab corpus) :
    ∃ s ∈ corpus.flatten, t = normalizeToken s := by
  unfold keywordVocab at ht
  obtain ⟨p, hp, hpt⟩ := List.mem_map.mp ht
  have hp1 : p ∈ byCountDesc (allNormalizedTokens corpus) :=
    List.take_subset 100 _ hp
  have hp2 : p ∈ countPairs (allNormalizedTokens corpus) := by
    unfold byCountDesc at hp1
    exact (List.perm_insertionSort countGE _).mem_iff.mp hp1
  obtain ⟨u, hu, hup⟩ := List.mem_map.mp hp2
  have hu' : u ∈ allNormalizedTokens corpus := List.mem_dedup.mp hu
  obtain ⟨s, hs, hsu⟩ := List.mem_map.mp hu'
  refine ⟨s, hs, ?_⟩
  rw [← hpt, ← hup]
  exact hsu.symm

theorem countPairs_snd {ts : List String} {p : String × Nat}
    (hp : p ∈ countPairs ts) : p.2 = ts.count p.1 := by
  obtain ⟨u, _, hup⟩ := List.mem_map.mp hp
  rw [← hup]

/-- C7 (amended): the vocabulary of lines 74-81 has at most 100 entries, each
entry consists only of Hangul syllables and lowercase ASCII letters (the
empty string satisfies this vacuously — tokens whose normalization is empty
are NOT dropped by the source), and the selected entries have maximal global
counts: no distinct normalized token outside the vocabulary has a strictly
larger count than any vocabulary entry. -/
theorem keywordVocab_spec (corpus : List (List String)) (t : String)
    (ht : t ∈ keywordVocab corpus) :
    (keywordVocab corpus).length ≤ 100 ∧
    (∀ c ∈ t.data,
      isHangulSyllable c = true ∨ (97 ≤ c.toNat ∧ c.toNat ≤ 122)) ∧
    (∀ s ∈ (allNormalizedTokens corpus).dedup, s ∉ keywordVocab corpus →
      (allNormalizedTokens corpus).count s ≤
        (allNormalizedTokens corpus).count t) := by
  refine ⟨?_, ?_, ?_⟩
  · unfold keywordVocab
    rw [List.length_map, List.length_take]
    exact min_le_left _ _
  · obtain ⟨s, _, hts⟩ := vocab_mem_normalized ht
    rw [hts]
    exact normalizeToken_chars s
  · intro s hs hsv
    have hsorted : List.Sorted countGE
        (byCountDesc (allNormalizedTokens corpus)) :=
      List.sorted_insertionSort countGE _
    have hsplit := List.take_append_drop 100
      (byCountDesc (allNormalizedTokens corpus))
    rw [← hsplit] at hsorted
    obtain ⟨-, -, hcross⟩ := List.pairwise_append.mp hsorted
    obtain ⟨pt, hpt, hptt⟩ := List.mem_map.mp ht
    have hps : (s, (allNormalizedTokens corpus).count s) ∈
        countPairs (allNormalizedTokens corpus) := by
      unfold countPairs
      exact List.mem_map.mpr ⟨s, hs, rfl⟩
    have hpsS : (s, (allNormalizedTokens corpus).count s) ∈
        byCountDesc (allNormalizedTokens corpus) := by
      unfold byCountDesc
      exact (List.perm_insertionSort countGE _).mem_iff.mpr hps
    rw [← hsplit] at hpsS
    rcases List.mem_append.mp hpsS with hin | hin
    · exact absurd (List.mem_map.mpr ⟨_, hin, rfl⟩) hsv
    · have hge := hcross pt hpt _ hin
      have hpt2 : pt.2 = (allNormalizedTokens corpus).count pt.1 :=
        countPairs_snd ((List.perm_insertionSort countGE _).mem_iff.mp
          (List.take_subset 100 _ hpt))
      unfold countGE at hge
      rw [hpt2, hptt] at hge
      exact hge

/-- Witness for `keywordVocab_spec` at a concrete corpus. -/
theorem keywordVocab_spec_witness :
    (keywordVocab [["ab"]]).length ≤ 100 ∧
    (∀ c ∈ ("ab" : String).data,
      isHangulSyllable c = true ∨ (97 ≤ c.toNat ∧ c.toNat ≤ 122)) ∧
    (∀ s ∈ (allNormalizedTokens [["ab"]]).dedup,
      s ∉ keywordVocab [["ab"]] →
      (allNormalizedTokens [["ab"]]).count s ≤
        (allNormalizedTokens [["ab"]]).count "ab") :=
  keywordVocab_spec [["ab"]] "ab" (by decide)

/-- C7 counterexample: a token normalizing to the empty string is counted and
can enter the vocabulary — the source never drops it.  With the single raw
token `"123"`, the vocabulary is exactly `[""]`. -/
theorem keywordVocab_keeps_empty_token :
    "" ∈ keywordVocab [["123"]] := by decide

/-- The `filtered_keywords` column over a corpus of raw token lists
(lines 86-89): the filter tests the RAW tokens against the vocabulary. -/
def corpusFilteredDocs (corpus : List (List String)) : List (List String) :=
  corpus.map (filteredKeywords (keywordVocab corpus))

/-- The `keyword_features` column of one record (lines 92-94): counts over
the vocabulary the `CountVectorizer` refits on the filtered column. -/
def corpusKeywordVector (corpus : List (List String)) (kws : List String) :
    List ℚ :=
  cvTransform (cvVocabulary (corpusFilteredDocs corpus))
    (filteredKeywords (keywordVocab corpus) kws)

/-- Modelled from the words of the spec for the refinement comparison of C5: the
claim says the NORMALIZED token list is filtered against the vocabulary. -/
def claimFilteredKeywords (vocab : List String) (kws : List String) :
    List String :=
  (kws.map normalizeToken).filter (fun t => t ∈ vocab)

/-- Modelled from the words of the spec for the refinement comparison of C5: the
claim says the count vector is indexed by the frozen vocabulary itself. -/
def claimKeywordVector (vocab : List String) (kws : List String) : List ℚ :=
  cvTransform vocab (claimFilteredKeywords vocab kws)

theorem keywordVocab_length_le (corpus : List (List String)) :
    (keywordVocab corpus).length ≤ 100 := by
  unfold keywordVocab
  rw [List.length_map, List.length_take]
  exact min_le_left _ _

theorem filteredDocs_flatten_subset (corpus : List (List String)) :
    (corpusFilteredDocs corpus).flatten ⊆ keywordVocab corpus := by
  intro t ht
  obtain ⟨doc, hdoc, htd⟩ := List.mem_flatten.mp ht
  obtain ⟨kws, _, hdk⟩ := List.mem_map.mp hdoc
  rw [← hdk] at htd
  exact of_decide_eq_true (List.mem_filter.mp htd).2

theorem cvVocab_subset_vocab (corpus : List (List String)) :
    ∀ w ∈ cvVocabulary (corpusFilteredDocs corpus),
      w ∈ keywordVocab corpus := by
  intro w hw
  unfold cvVocabulary byCountDesc at hw
  obtain ⟨p, hp, hpw⟩ := List.mem_map.mp hw
  have hp2 : p ∈ countPairs (corpusFilteredDocs corpus).flatten :=
    (List.perm_insertionSort countGE _).mem_iff.mp hp
  obtain ⟨u, hu, hup⟩ := List.mem_map.mp hp2
  have hu' : u ∈ (corpusFilteredDocs corpus).flatten := List.mem_dedup.mp hu
  have : w = u := by rw [← hpw, ← hup]
  rw [this]
  exact filteredDocs_flatten_subset corpus hu'

theorem cvVocab_length_le (corpus : List (List String)) :
    (cvVocabulary (corpusFilteredDocs corpus)).length ≤ 100 := by
  have hnd : (cvVocabulary (corpusFilteredDocs corpus)).Nodup := by
    unfold cvVocabulary byCountDesc
    apply List.Nodup.map_on
    · intro a ha b hb hab
      have ha' := (List.perm_insertionSort countGE _).mem_iff.mp ha
      have hb' := (List.perm_insertionSort countGE _).mem_iff.mp hb
      have ha2 := countPairs_snd ha'
      have hb2 := countPairs_snd hb'
      have : a.2 = b.2 := by rw [ha2, hb2, hab]
      exact Prod.ext hab this
    · apply (List.perm_insertionSort countGE _).nodup_iff.mpr
      unfold countPairs
      apply List.Nodup.map_on
      · intro a _ b _ hab
        have := congrArg Prod.fst hab
        simpa using this
      · exact List.nodup_dedup _
  calc (cvVocabulary (corpusFilteredDocs corpus)).length
      ≤ (keywordVocab corpus).length :=
        (List.Nodup.subperm hnd (cvVocab_subset_vocab corpus)).length_le
    _ ≤ 100 := keywordVocab_length_le corpus

/-- C5 (amended): the vectorizer of lines 83-94 filters the RAW token list
(not the normalized one) to tokens literally present in the frozen
vocabulary, keeping multiplicities; the count vector is indexed by the
vocabulary the `CountVectorizer` refits on the filtered column — every such
term lies in the frozen vocabulary, so the vector has at most 100 slots — and
a record with zero matching tokens gets the all-zero vector, not an error. -/
theorem keyword_vectorizer_amended (corpus : List (List String))
    (kws : List String) (hk : kws ∈ corpus) :
    (∀ t, (filteredKeywords (keywordVocab corpus) kws).count t =
        if t ∈ keywordVocab corpus then kws.count t else 0) ∧
    (∀ w ∈ cvVocabulary (corpusFilteredDocs corpus),
        w ∈ keywordVocab corpus) ∧
    (corpusKeywordVector corpus kws).length ≤ 100 ∧
    ((∀ t ∈ kws, t ∉ keywordVocab corpus) →
      corpusKeywordVector corpus kws =
        List.replicate (cvVocabulary (corpusFilteredDocs corpus)).length 0) := by
  refine ⟨?_, cvVocab_subset_vocab corpus, ?_, ?_⟩
  · intro t
    by_cases htv : t ∈ keywordVocab corpus
    · rw [if_pos htv]
      exact List.count_filter (by simpa using htv)
    · rw [if_neg htv]
      apply List.count_eq_zero.mpr
      intro hmem
      exact htv (of_decide_eq_true (List.mem_filter.mp hmem).2)
  · unfold corpusKeywordVector cvTransform
    rw [List.length_map]
    exact cvVocab_length_le corpus
  · intro hnone
    have hfil : filteredKeywords (keywordVocab corpus) kws = [] := by
      apply List.filter_eq_nil_iff.mpr
      intro t ht
      simpa using hnone t ht
    unfold corpusKeywordVector
    rw [hfil]
    unfold cvTransform
    simp only [List.count_nil, Nat.cast_zero]
    exact List.map_const' _ 0

/-- Witness for `keyword_vectorizer_amended` at a concrete corpus. -/
theorem keyword_vectorizer_amended_witness :
    (∀ t, (filteredKeywords (keywordVocab [["ab"]]) ["ab"]).count t =
        if t ∈ keywordVocab [["ab"]] then (["ab"] : List String).count t
        else 0) ∧
    (∀ w ∈ cvVocabulary (corpusFilteredDocs [["ab"]]),
        w ∈ keywordVocab [["ab"]]) ∧
    (corpusKeywordVector [["ab"]] ["ab"]).length ≤ 100 ∧
    ((∀ t ∈ (["ab"] : List String), t ∉ keywordVocab [["ab"]]) →
      corpusKeywordVector [["ab"]] ["ab"] =
        List.replicate (cvVocabulary (corpusFilteredDocs [["ab"]])).length 0) :=
  keyword_vectorizer_amended [["ab"]] ["ab"] (by decide)

/-- C5 counterexample: with corpus `[["Nike", "shoes"], ["shoes"]]` the
frozen vocabulary is `["shoes", "nike"]`; the source filters the RAW tokens,
so `"Nike"` is dropped although its normalization `"nike"` is in the
vocabulary, and the resulting count vector has 1 slot, not one per frozen
vocabulary entry as the claim states. -/
theorem keyword_vectorizer_counterexample :
    keywordVocab [["Nike", "shoes"], ["shoes"]] = ["shoes", "nike"] ∧
    filteredKeywords (keywordVocab [["Nike", "shoes"], ["shoes"]])
        ["Nike", "shoes"] = ["shoes"] ∧
    claimFilteredKeywords (keywordVocab [["Nike", "shoes"], ["shoes"]])
        ["Nike", "shoes"] = ["nike", "shoes"] ∧
    (corpusKeywordVector [["Nike", "shoes"], ["shoes"]]
        ["Nike", "shoes"]).length = 1 ∧
    (claimKeywordVector (keywordVocab [["Nike", "shoes"], ["shoes"]])
        ["Nike", "shoes"]).length = 2 := by
  decide

theorem indexerLabels_length (vals : List String) :
    (indexerLabels vals).length = vals.dedup.length := by
  unfold indexerLabels byCountDesc
  rw [List.length_map, (List.perm_insertionSort countGE _).length_eq]
  unfold countPairs
  rw [List.length_map]

theorem mem_indexerLabels {vals : List String} {v : String} (hv : v ∈ vals) :
    v ∈ indexerLabels vals := by
  unfold indexerLabels byCountDesc
  apply List.mem_map.mpr
  refine ⟨(v, vals.count v), ?_, rfl⟩
  apply (List.perm_insertionSort countGE _).mem_iff.mpr
  unfold countPairs
  exact List.mem_map.mpr ⟨v, List.mem_dedup.mpr hv, rfl⟩

/-- C6 (amended): `StringIndexer` + `OneHotEncoder` with the Spark default
`dropLast = true` (lines 51-58): the one-hot vector has `distinct - 1` slots,
slot `j` is 1 exactly when `j` is the frequency index of the value of the record,
and the last-indexed (least frequent) value maps to the all-zero vector, not
to a vector with a single 1. -/
theorem onehot_amended (vals : List String) (v : String) (hv : v ∈ vals) :
    (oneHotEncode vals v).length = vals.dedup.length - 1 ∧
    (indexerLabels vals).indexOf v < (indexerLabels vals).length ∧
    (∀ j (hj : j < (oneHotEncode vals v).length),
      (oneHotEncode vals v).get ⟨j, hj⟩ =
        if (indexerLabels vals).indexOf v = j then 1 else 0) ∧
    ((indexerLabels vals).indexOf v = (indexerLabels vals).length - 1 →
      oneHotEncode vals v = List.replicate (vals.dedup.length - 1) 0) := by
  refine ⟨?_, ?_, ?_, ?_⟩
  · unfold oneHotEncode
    rw [List.length_map, List.length_range, indexerLabels_length]
  · exact List.indexOf_lt_length.mpr (mem_indexerLabels hv)
  · intro j hj
    unfold oneHotEncode
    simp [List.getElem_map, List.getElem_range]
  · intro hlast
    unfold oneHotEncode
    have hz : ∀ j ∈ List.range ((indexerLabels vals).length - 1),
        (if (indexerLabels vals).indexOf v = j then (1 : ℚ) else 0) = 0 := by
      intro j hj
      have hjlt : j < (indexerLabels vals).length - 1 := List.mem_range.mp hj
      rw [if_neg]
      omega
    rw [List.map_congr_left hz, List.map_const', List.length_range,
      indexerLabels_length]

/-- Witness for `onehot_amended` at a concrete input. -/
theorem onehot_amended_witness :
    (oneHotEncode ["a", "a", "b"] "b").length =
        (["a", "a", "b"] : List String).dedup.length - 1 ∧
    (indexerLabels ["a", "a", "b"]).indexOf "b" <
        (indexerLabels ["a", "a", "b"]).length ∧
    (∀ j (hj : j < (oneHotEncode ["a", "a", "b"] "b").length),
      (oneHotEncode ["a", "a", "b"] "b").get ⟨j, hj⟩ =
        if (indexerLabels ["a", "a", "b"]).indexOf "b" = j then 1 else 0) ∧
    ((indexerLabels ["a", "a", "b"]).indexOf "b" =
        (indexerLabels ["a", "a", "b"]).length - 1 →
      oneHotEncode ["a", "a", "b"] "b" =
        List.replicate ((["a", "a", "b"] : List String).dedup.length - 1) 0) :=
  onehot_amended ["a", "a", "b"] "b" (by decide)

/-- C6 counterexample: with observed values `["a", "a", "b"]` there are two
distinct values, yet the encoded vector of `"b"` is `[0]` — length 1, not 2,
and it contains no 1 at all (the Spark `dropLast` default). -/
theorem onehot_counterexample :
    (["a", "a", "b"] : List String).dedup.length = 2 ∧
    oneHotEncode ["a", "a", "b"] "b" = [0] ∧
    (oneHotEncode ["a", "a", "b"] "b").count 1 = 0 := by
  decide

/-- A row of a per-category prediction table (lines 173-176): the selected
columns `productId, category, recommend, predicted_recommend`. -/
structure PredRow where
  productId : Nat
  category : String
  recommend : Nat
  predicted : Nat
  deriving DecidableEq, Repr

/-- Line 198: `all_predictions_result.filter(col("category") == category)`. -/
def categoryRows (all : List PredRow) (c : String) : List PredRow :=
  all.filter (fun r => r.category = c)

/-- Line 200. -/
def tpOf (l : List PredRow) : Nat :=
  (l.filter (fun r => r.predicted = 1 ∧ r.recommend = 1)).length

/-- Line 201. -/
def fnOf (l : List PredRow) : Nat :=
  (l.filter (fun r => r.predicted = 0 ∧ r.recommend = 1)).length

/-- Line 202. -/
def fpOf (l : List PredRow) : Nat :=
  (l.filter (fun r => r.predicted = 1 ∧ r.recommend = 0)).length

/-- Line 203. -/
def tnOf (l : List PredRow) : Nat :=
  (l.filter (fun r => r.predicted = 0 ∧ r.recommend = 0)).length

/-- The Python call `round(x, 2)`. -/
def round2 (q : ℚ) : ℚ := (round (q * 100) : ℤ) / 100

/-- Line 205: `round(tp / (tp + fn), 2) if (tp + fn) > 0 else 0.0`. -/
def recallOf (l : List PredRow) : ℚ :=
  if 0 < tpOf l + fnOf l then
    round2 ((tpOf l : ℚ) / ((tpOf l : ℚ) + (fnOf l : ℚ)))
  else 0

/-- Line 206: `round(tp / (tp + fp), 2) if (tp + fp) > 0 else 0.0`. -/
def precisionOf (l : List PredRow) : ℚ :=
  if 0 < tpOf l + fpOf l then
    round2 ((tpOf l : ℚ) / ((tpOf l : ℚ) + (fpOf l : ℚ)))
  else 0

/-- One printed confusion block (lines 208-216 / 227-235). -/
structure ConfRow where
  category : String
  truePos : Nat
  falseNeg : Nat
  falsePos : Nat
  trueNeg : Nat
  recallVal : ℚ
  precisionVal : ℚ
  deriving DecidableEq, Repr

def mkConfRow (name : String) (l : List PredRow) : ConfRow :=
  { category := name
    truePos := tpOf l
    falseNeg := fnOf l
    falsePos := fpOf l
    trueNeg := tnOf l
    recallVal := recallOf l
    precisionVal := precisionOf l }

/-- Line 196. -/
def categoriesList : List String := ["clothes_top", "pants", "shoes", "outers"]

/-- The per-category confusion blocks printed by the loop of lines 197-216. -/
def confusionReport (all : List PredRow) : List ConfRow :=
  categoriesList.map (fun c => mkConfRow c (categoryRows all c))

/-- The overall confusion block of lines 219-235, computed over the whole
unioned prediction table. -/
def overallRow (all : List PredRow) : ConfRow := mkConfRow "overall" all

theorem confusion_partition (l : List PredRow)
    (hb : ∀ r ∈ l, (r.recommend = 0 ∨ r.recommend = 1) ∧
      (r.predicted = 0 ∨ r.predicted = 1)) :
    tpOf l + fnOf l + fpOf l + tnOf l = l.length := by
  induction l with
  | nil => simp [tpOf, fnOf, fpOf, tnOf]
  | cons r rs ih =>
    have hr := hb r (by simp)
    have ih' := ih (fun s hs => hb s (by simp [hs]))
    unfold tpOf fnOf fpOf tnOf at ih' ⊢
    rcases hr.1 with h | h <;> rcases hr.2 with p | p <;>
      simp [List.filter_cons, h, p, Bool.decide_and] at ih' ⊢ <;> omega

/-- C8: for every category, `tp + fn + fp + tn` equals the number of prediction
rows of that category (when labels and predictions are 0/1-valued, as
they are for a binary classifier over 0/1 labels); recall and precision obey
the rounded formulas with the `0.0` fallback on a zero denominator; and the
overall block is the identical computation applied to the whole unioned
table. -/
theorem confusion_rows_spec (all : List PredRow) (c : String)
    (hb : ∀ r ∈ all, (r.recommend = 0 ∨ r.recommend = 1) ∧
      (r.predicted = 0 ∨ r.predicted = 1)) :
    tpOf (categoryRows all c) + fnOf (categoryRows all c) +
        fpOf (categoryRows all c) + tnOf (categoryRows all c) =
      (categoryRows all c).length ∧
    recallOf (categoryRows all c) =
      (if 0 < tpOf (categoryRows all c) + fnOf (categoryRows all c) then
        round2 ((tpOf (categoryRows all c) : ℚ) /
          ((tpOf (categoryRows all c) : ℚ) + (fnOf (categoryRows all c) : ℚ)))
      else 0) ∧
    precisionOf (categoryRows all c) =
      (if 0 < tpOf (categoryRows all c) + fpOf (categoryRows all c) then
        round2 ((tpOf (categoryRows all c) : ℚ) /
          ((tpOf (categoryRows all c) : ℚ) + (fpOf (categoryRows all c) : ℚ)))
      else 0) ∧
    overallRow all = mkConfRow "overall" all ∧
    tpOf all + fnOf all + fpOf all + tnOf all = all.length := by
  refine ⟨?_, rfl, rfl, rfl, confusion_partition all hb⟩
  apply confusion_partition
  intro r hr
  simp only [categoryRows] at hr
  exact hb r (List.mem_filter.mp hr).1

def samplePreds : List PredRow :=
  [⟨1, "shoes", 1, 1⟩, ⟨2, "shoes", 1, 0⟩, ⟨3, "pants", 0, 1⟩]

/-- Witness for `confusion_rows_spec` at a concrete prediction table. -/
theorem confusion_rows_spec_witness :
    tpOf (categoryRows samplePreds "shoes") +
        fnOf (categoryRows samplePreds "shoes") +
        fpOf (categoryRows samplePreds "shoes") +
        tnOf (categoryRows samplePreds "shoes") =
      (categoryRows samplePreds "shoes").length ∧
    recallOf (categoryRows samplePreds "shoes") =
      (if 0 < tpOf (categoryRows samplePreds "shoes") +
          fnOf (categoryRows samplePreds "shoes") then
        round2 ((tpOf (categoryRows samplePreds "shoes") : ℚ) /
          ((tpOf (categoryRows samplePreds "shoes") : ℚ) +
            (fnOf (categoryRows samplePreds "shoes") : ℚ)))
      else 0) ∧
    precisionOf (categoryRows samplePreds "shoes") =
      (if 0 < tpOf (categoryRows samplePreds "shoes") +
          fpOf (categoryRows samplePreds "shoes") then
        round2 ((tpOf (categoryRows samplePreds "shoes") : ℚ) /
          ((tpOf (categoryRows samplePreds "shoes") : ℚ) +
            (fpOf (categoryRows samplePreds "shoes") : ℚ)))
      else 0) ∧
    overallRow samplePreds = mkConfRow "overall" samplePreds ∧
    tpOf samplePreds + fnOf samplePreds + fpOf samplePreds +
        tnOf samplePreds = samplePreds.length :=
  confusion_rows_spec samplePreds "shoes" (by decide)

/-- Lines 108-111: `vectorized_data.filter(col("category") == c)`. -/
def categoryData (joined : List JoinedRecord) (c : String) :
    List JoinedRecord :=
  joined.filter (fun j => j.category = c)

/-- Lines 113-116: the test side of `randomSplit([0.7, 0.3], seed=42)`,
modelled by a deterministic per-row assignment (`true` = test): every row
lands in exactly one of the two splits. -/
def testSplit (assign : JoinedRecord → Bool) (l : List JoinedRecord) :
    List JoinedRecord :=
  l.filter assign

/-- The train side of the same split. -/
def trainSplit (assign : JoinedRecord → Bool) (l : List JoinedRecord) :
    List JoinedRecord :=
  l.filter (fun j => ! assign j)

/-- Lines 162-176: run the fitted model of the category over its test rows and
select `productId, category, recommend, predicted_recommend`.  The fitted
model is the opaque capability `predict`. -/
def predsFor (joined : List JoinedRecord) (assign : JoinedRecord → Bool)
    (predict : String → List ℚ → Nat) (c : String) : List PredRow :=
  (testSplit assign (categoryData joined c)).map
    (fun j => { productId := j.productId
                category := j.category
                recommend := j.recommend
                predicted := predict c (pipelineFeature joined j) })

/-- Lines 190-193: union of the four per-category prediction tables. -/
def allPredsOf (joined : List JoinedRecord) (assign : JoinedRecord → Bool)
    (predict : String → List ℚ → Nat) : List PredRow :=
  predsFor joined assign predict "clothes_top" ++
  predsFor joined assign predict "pants" ++
  predsFor joined assign predict "shoes" ++
  predsFor joined assign predict "outers"

/-- The unioned test predictions of the whole run. -/
def runPredictions (l : List RankingRecord) (kws : List KeywordRecord)
    (assign : JoinedRecord → Bool) (predict : String → List ℚ → Nat) :
    List PredRow :=
  allPredsOf (joinedOf l kws) assign predict

/-- The printed per-category confusion blocks of the run (lines 196-216). -/
def runReport (l : List RankingRecord) (kws : List KeywordRecord)
    (assign : JoinedRecord → Bool) (predict : String → List ℚ → Nat) :
    List ConfRow :=
  confusionReport (runPredictions l kws assign predict)

theorem kw_filter_le_one (kws : List KeywordRecord) (x : Nat)
    (hkw : (kws.map (fun k => k.productId)).Nodup) :
    (kws.filter (fun k => k.productId = x)).length ≤ 1 := by
  induction kws with
  | nil => simp
  | cons k ks ih =>
    simp only [List.map_cons, List.nodup_cons] at hkw
    by_cases hp : k.productId = x
    · have hnil : ks.filter (fun k => k.productId = x) = [] := by
        apply List.filter_eq_nil_iff.mpr
        intro a ha
        simp only [decide_eq_true_eq]
        intro hc
        have hmem : a.productId ∈ ks.map (fun k => k.productId) :=
          List.mem_map_of_mem _ ha
        rw [hc, ← hp] at hmem
        exact hkw.1 hmem
      simp [List.filter_cons, hp, hnil]
    · simp only [List.filter_cons, hp]
      simpa using ih hkw.2

theorem joinLists_pid_sublist (lab : List LabeledRecord)
    (kws : List KeywordRecord)
    (hkw : (kws.map (fun k => k.productId)).Nodup) :
    ((joinLists lab kws).map (fun j => j.productId)).Sublist
      (lab.map (fun lr => lr.productId)) := by
  induction lab with
  | nil => simp [joinLists]
  | cons lr rest ih =>
    simp only [joinLists, List.map_append, List.map_cons]
    have hle := kw_filter_le_one kws lr.productId hkw
    rcases hfe : kws.filter (fun k => k.productId = lr.productId)
      with _ | ⟨k0, m⟩
    · rw [hfe]
      simpa using ih.cons _
    · rcases m with _ | ⟨k1, m2⟩
      · rw [hfe]
        simpa [mkJoined] using ih.cons₂ lr.productId
      · rw [hfe] at hle
        simp at hle

theorem joinedOf_pid_nodup (l : List RankingRecord)
    (kws : List KeywordRecord)
    (hkw : (kws.map (fun k => k.productId)).Nodup) :
    ((joinedOf l kws).map (fun j => j.productId)).Nodup := by
  apply List.Nodup.sublist
    (joinLists_pid_sublist ((dedupRankings l).map labelAssign) kws hkw)
  rw [List.map_map]
  have hcomp : ((fun lr : LabeledRecord => lr.productId) ∘ labelAssign) =
      (fun r : RankingRecord => r.productId) := rfl
  rw [hcomp, dedup_map_productId]
  exact List.nodup_dedup _

theorem joined_filter_pid_le_one (J : List JoinedRecord) (pid : Nat)
    (hnd : (J.map (fun j => j.productId)).Nodup) :
    (J.filter (fun j => j.productId = pid)).length ≤ 1 := by
  induction J with
  | nil => simp
  | cons j js ih =>
    simp only [List.map_cons, List.nodup_cons] at hnd
    by_cases hp : j.productId = pid
    · have hnil : js.filter (fun j => j.productId = pid) = [] := by
        apply List.filter_eq_nil_iff.mpr
        intro a ha
        simp only [decide_eq_true_eq]
        intro hc
        have hmem : a.productId ∈ js.map (fun j => j.productId) :=
          List.mem_map_of_mem _ ha
        rw [hc, ← hp] at hmem
        exact hnd.1 hmem
      simp [List.filter_cons, hp, hnil]
    · simp only [List.filter_cons, hp]
      simpa using ih hnd.2

theorem predsFor_filter_pid (joined : List JoinedRecord)
    (assign : JoinedRecord → Bool) (predict : String → List ℚ → Nat)
    (c : String) (pid : Nat) :
    ((predsFor joined assign predict c).filter
        (fun r => r.productId = pid)).length =
      ((joined.filter (fun j => j.productId = pid)).filter
        (fun j => decide (j.category = c) && assign j)).length := by
  unfold predsFor testSplit categoryData
  rw [List.filter_map, List.length_map, List.filter_filter,
    List.filter_filter, List.filter_filter]
  apply congrArg
  apply List.filter_congr
  intro j _
  cases hx : decide (j.productId = pid) <;> cases hy : assign j <;>
    cases hz : decide (j.category = c) <;> simp [hx, hy, hz]

theorem indicator_four (s : String) (b : Bool) :
    (if decide (s = "clothes_top") && b = true then 1 else 0) +
    (if decide (s = "pants") && b = true then 1 else 0) +
    (if decide (s = "shoes") && b = true then 1 else 0) +
    (if decide (s = "outers") && b = true then 1 else 0) ≤ 1 := by
  by_cases h1 : s = "clothes_top" <;> by_cases h2 : s = "pants" <;>
    by_cases h3 : s = "shoes" <;> by_cases h4 : s = "outers" <;>
    cases b <;> simp_all

theorem four_cat_le_one (J : List JoinedRecord)
    (assign : JoinedRecord → Bool) (pid : Nat)
    (hle : (J.filter (fun j => j.productId = pid)).length ≤ 1) :
    ((J.filter (fun j => j.productId = pid)).filter
        (fun j => decide (j.category = "clothes_top") && assign j)).length +
    ((J.filter (fun j => j.productId = pid)).filter
        (fun j => decide (j.category = "pants") && assign j)).length +
    ((J.filter (fun j => j.productId = pid)).filter
        (fun j => decide (j.category = "shoes") && assign j)).length +
    ((J.filter (fun j => j.productId = pid)).filter
        (fun j => decide (j.category = "outers") && assign j)).length ≤ 1 := by
  rcases hF : J.filter (fun j => j.productId = pid) with _ | ⟨j0, F1⟩
  · rw [hF]
    simp
  · rcases F1 with _ | ⟨j1, F2⟩
    · rw [hF]
      simp only [List.filter_cons, List.filter_nil]
      have hind := indicator_four j0.category (assign j0)
      by_cases h1 : (decide (j0.category = "clothes_top") && assign j0) = true <;>
      by_cases h2 : (decide (j0.category = "pants") && assign j0) = true <;>
      by_cases h3 : (decide (j0.category = "shoes") && assign j0) = true <;>
      by_cases h4 : (decide (j0.category = "outers") && assign j0) = true <;>
        simp [h1, h2, h3, h4] at hind ⊢ <;> omega
    · rw [hF] at hle
      simp at hle

/-- C10: no `productId` contributes two rows to the unioned prediction
output, provided the keyword table has at most one row per `productId` (its
documented shape): deduplication leaves unique ids, the inner join preserves
that, the four category filters are pairwise disjoint, and the split keeps
each row on exactly one side. -/
theorem union_unique_productId (l : List RankingRecord)
    (kws : List KeywordRecord) (assign : JoinedRecord → Bool)
    (predict : String → List ℚ → Nat) (pid : Nat)
    (hkw : (kws.map (fun k => k.productId)).Nodup) :
    ((runPredictions l kws assign predict).filter
      (fun r => r.productId = pid)).length ≤ 1 := by
  have hnd := joinedOf_pid_nodup l kws hkw
  have hle := joined_filter_pid_le_one (joinedOf l kws) pid hnd
  unfold runPredictions allPredsOf
  rw [List.filter_append, List.filter_append, List.filter_append,
    List.length_append, List.length_append, List.length_append,
    predsFor_filter_pid, predsFor_filter_pid, predsFor_filter_pid,
    predsFor_filter_pid]
  exact four_cat_le_one (joinedOf l kws) assign pid hle

theorem predsFor_category (joined : List JoinedRecord)
    (assign : JoinedRecord → Bool) (predict : String → List ℚ → Nat)
    (c : String) :
    ∀ r ∈ predsFor joined assign predict c, r.category = c := by
  intro r hr
  unfold predsFor testSplit categoryData at hr
  obtain ⟨j, hj, hjr⟩ := List.mem_map.mp hr
  have hj2 := List.mem_filter.mp (List.mem_filter.mp hj).1
  have hcat : j.category = c := of_decide_eq_true hj2.2
  rw [← hjr]
  exact hcat

theorem predsFor_of_empty (joined : List JoinedRecord)
    (assign : JoinedRecord → Bool) (predict : String → List ℚ → Nat)
    (c : String) (h : categoryData joined c = []) :
    predsFor joined assign predict c = [] := by
  unfold predsFor testSplit
  rw [h]
  rfl

theorem categoryRows_predsFor_ne (joined : List JoinedRecord)
    (assign : JoinedRecord → Bool) (predict : String → List ℚ → Nat)
    (c c₂ : String) (hne : c ≠ c₂) :
    categoryRows (predsFor joined assign predict c) c₂ = [] := by
  unfold categoryRows
  apply List.filter_eq_nil_iff.mpr
  intro r hr
  simp only [decide_eq_true_eq]
  intro hc
  exact hne ((predsFor_category joined assign predict c r hr ▸ hc : c = c₂))

/-- C9 (amended): when one category has zero rows after filtering, the run
(with the classifier capability treated as a total function) produces no
prediction rows for it, yet the printed confusion output still contains a
block for that category — an all-zero block with recall = precision = 0 —
and every other category is still reported: the loop of lines 196-216 always
emits all four category blocks. -/
theorem empty_category_behavior (l : List RankingRecord)
    (kws : List KeywordRecord) (assign : JoinedRecord → Bool)
    (predict : String → List ℚ → Nat)
    (h : categoryData (joinedOf l kws) "outers" = []) :
    categoryRows (runPredictions l kws assign predict) "outers" = [] ∧
    mkConfRow "outers"
        (categoryRows (runPredictions l kws assign predict) "outers") ∈
      runReport l kws assign predict ∧
    mkConfRow "outers" [] =
      { category := "outers", truePos := 0, falseNeg := 0, falsePos := 0,
        trueNeg := 0, recallVal := 0, precisionVal := 0 } ∧
    (runReport l kws assign predict).map (fun r => r.category) =
      categoriesList := by
  have hrows : categoryRows (runPredictions l kws assign predict)
      "outers" = [] := by
    unfold runPredictions allPredsOf categoryRows
    rw [List.filter_append, List.filter_append, List.filter_append]
    have e1 := categoryRows_predsFor_ne (joinedOf l kws) assign predict
      "clothes_top" "outers" (by decide)
    have e2 := categoryRows_predsFor_ne (joinedOf l kws) assign predict
      "pants" "outers" (by decide)
    have e3 := categoryRows_predsFor_ne (joinedOf l kws) assign predict
      "shoes" "outers" (by decide)
    have e4 := predsFor_of_empty (joinedOf l kws) assign predict "outers" h
    unfold categoryRows at e1 e2 e3
    rw [e1, e2, e3, e4]
    rfl
  refine ⟨hrows, ?_, by decide, ?_⟩
  · unfold runReport confusionReport
    exact List.mem_map.mpr ⟨"outers", by decide, rfl⟩
  · unfold runReport confusionReport
    rw [List.map_map]
    rfl

def sampleRankings : List RankingRecord := [⟨1, 0, 100⟩]

def sampleKw : KeywordRecord :=
  { productId := 1, brandName := "b", colors := "c", keywords := ["k"],
    rating := 0, ratingCount := 0, price := 0, discountRate := 0,
    conversionRate := 0, trending := 0, totalSales := 0, views := 0,
    likes := 0, category := "shoes" }

/-- Witness for `empty_category_behavior` at a concrete run whose `outers`
category is empty. -/
theorem empty_category_behavior_witness :
    categoryRows (runPredictions sampleRankings [sampleKw]
        (fun _ => true) (fun _ _ => 1)) "outers" = [] ∧
    mkConfRow "outers"
        (categoryRows (runPredictions sampleRankings [sampleKw]
          (fun _ => true) (fun _ _ => 1)) "outers") ∈
      runReport sampleRankings [sampleKw] (fun _ => true) (fun _ _ => 1) ∧
    mkConfRow "outers" [] =
      { category := "outers", truePos := 0, falseNeg := 0, falsePos := 0,
        trueNeg := 0, recallVal := 0, precisionVal := 0 } ∧
    (runReport sampleRankings [sampleKw] (fun _ => true)
        (fun _ _ => 1)).map (fun r => r.category) = categoriesList :=
  empty_category_behavior sampleRankings [sampleKw] (fun _ => true)
    (fun _ _ => 1) (by decide)

/-- C9 counterexample: in a concrete run with no `outers` record at all, the
printed confusion output still contains an (all-zero) block for `outers`,
contradicting the claim that an empty category produces no entry in the
confusion output. -/
theorem empty_category_counterexample :
    categoryData (joinedOf sampleRankings [sampleKw]) "outers" = [] ∧
    ({ category := "outers", truePos := 0, falseNeg := 0, falsePos := 0,
       trueNeg := 0, recallVal := 0, precisionVal := 0 } : ConfRow) ∈
      runReport sampleRankings [sampleKw] (fun _ => true)
        (fun _ _ => 1) := by
  constructor
  · decide
  · decide

/-- Witness for `union_unique_productId` at a concrete run. -/
theorem union_unique_productId_witness :
    ((runPredictions sampleRankings [sampleKw] (fun _ => true)
        (fun _ _ => 1)).filter (fun r => r.productId = 1)).length ≤ 1 :=
  union_unique_productId sampleRankings [sampleKw] (fun _ => true)
    (fun _ _ => 1) 1 (by decide)

/-- Witness for `ranking_never_in_features` at a concrete run. -/
theorem ranking_never_in_features_witness :
    pipelineFeatures (sampleRankings.map zeroRanking) [sampleKw] =
      pipelineFeatures sampleRankings [sampleKw] :=
  ranking_never_in_features.2 sampleRankings [sampleKw]

/-- The methods defined in the body of `class ProductRecommendation`
(lines 17-235).  `save_results` (line 239) is NOT among them: its `def` is at
module level (column 0), outside the class body. -/
def productRecommendationMethods : List String :=
  ["__init__", "preprocess_data", "vectorize_keywords", "train_models",
   "evaluate_models", "predict_and_evaluate"]

/-- The module-level functions of the file (lines 239 and 250). -/
def moduleLevelFunctions : List String := ["save_results", "main"]

/-- Python attribute lookup `recommendation.<name>()`: succeeds only when the
name is a method of the class. -/
def lookupMethod (n : String) : Except String Unit :=
  if n ∈ productRecommendationMethods then Except.ok ()
  else Except.error ("AttributeError: " ++ n)

/-- The method calls `main` makes on the `ProductRecommendation` instance, in
source order (lines 258-263). -/
def mainMethodCalls : List String :=
  ["preprocess_data", "vectorize_keywords", "train_models",
   "evaluate_models", "predict_and_evaluate", "save_results"]

/-- Run the method calls of `main` in order; the first failing attribute lookup
aborts the run with its error. -/
def runMainLookups : Except String Unit :=
  mainMethodCalls.foldl
    (fun acc n =>
      match acc with
      | Except.ok _ => lookupMethod n
      | Except.error e => Except.error e)
    (Except.ok ())

/-- Files written by the run: `predict_output.csv` is written only inside
`save_results` (lines 245-246), so only when that call is reached and its
lookup succeeds. -/
def runMainWrites : List String :=
  match runMainLookups with
  | Except.ok _ => ["predict_output.csv"]
  | Except.error _ => []

/-- C4 is violated by the source: `save_results` is defined at module level
(line 239 starts at column 0), not as a method of `ProductRecommendation`,
so `recommendation.save_results()` on line 263 raises `AttributeError` and
`predict_output.csv` is never written. -/
theorem save_results_attribute_bug :
    "save_results" ∉ productRecommendationMethods ∧
    "save_results" ∈ moduleLevelFunctions ∧
    runMainLookups = Except.error ("AttributeError: " ++ "save_results") ∧
    runMainWrites = [] := by
  refine ⟨by decide, by decide, rfl, rfl⟩

end Pipeline
